import Mathlib

/-!
Shallow embedding of the nmbr9 search engine (mkeeter/nmbr9) as found under
`src/`, together with theorems settling the frozen specification claims.

Conventions:
* Rust `u16` bitmaps become `Nat` values (< 2^16 where it matters).
* Rust `i32` coordinates become `Int`.
* Fallible operations (panics, out-of-bounds) become `Option`.
* Loops become folds / structural recursion mirroring the source iteration.
-/

namespace Nmbr9

/-- The ten base piece bitmaps, from `piece.rs` (`static PIECES`). -/
def PIECES : List Nat :=
  [0b1110101010101110,
   0b1100010001000100,
   0b0110011011001110,
   0b1110001001101110,
   0b0110010011100110,
   0b1110100011101110,
   0b1100100011101110,
   0b1110010011001000,
   0b0110011011001100,
   0b1110111011001100]

/-- Bit index of a cell `(x, y)`, as computed by `piece.rs`:
`(3 - x) + y * 4` (clamped to `Nat`; the source only uses it for
coordinates in `[0,3]`, guarded by `debug_assert!`). -/
def cellIdx (q : Int × Int) : Nat := ((3 - q.1) + q.2 * 4).toNat

/-- The cell named by bit `i`, as in `Piece::from_u16`:
`(3 - (i % 4), i / 4)`. -/
def cellOf (i : Nat) : Int × Int := (((3 : Int) - (i % 4 : Nat)), ((i / 4 : Nat) : Int))

/-- A piece: its occupied cells and its 4×4 bitmap (`struct Piece` in
`piece.rs`). -/
structure Piece where
  pts : List (Int × Int)
  bmp : Nat
  deriving Repr, DecidableEq

/-- `Piece::from_u16`: unpack a 16-bit mask into its cell list (bit `i` set
contributes cell `(3 - i % 4, i / 4)`, scanned for `i` in `0..16`). -/
def Piece.fromU16 (m : Nat) : Piece :=
  { pts := (List.range 16).filterMap
      (fun i => if m.testBit i then some (cellOf i) else none),
    bmp := m }

/-- `Piece::to_u16`. -/
def Piece.toU16 (p : Piece) : Nat := p.bmp

/-- The bitmap accumulated by `Piece::from_pts`: `bmp |= 1 << ((3-x) + y*4)`
for each point. -/
def bmpOfPts (l : List (Int × Int)) : Nat :=
  l.foldl (fun b q => b ||| (1 <<< cellIdx q)) 0

/-- `Piece::from_pts`. -/
def Piece.fromPts (l : List (Int × Int)) : Piece :=
  { pts := l, bmp := bmpOfPts l }

/-- `Piece::at`: bounds-checked bitmap query. -/
def Piece.at (p : Piece) (x y : Int) : Bool :=
  if x < 0 ∨ y < 0 ∨ x ≥ 4 ∨ y ≥ 4 then false
  else p.bmp &&& (1 <<< cellIdx (x, y)) ≠ 0

/-- The point map of `Piece::rot`: `(x, y) ↦ (y, -x + 3)`. -/
def rotPt (q : Int × Int) : Int × Int := (q.2, -q.1 + 3)

/-- `Piece::rot`: rotate 90° clockwise. -/
def Piece.rot (p : Piece) : Piece := Piece.fromPts (p.pts.map rotPt)

/-- Apply `Piece::rot` `r` times (the `p = p.rot()` loops in the source). -/
def Piece.rotn (p : Piece) : Nat → Piece
  | 0 => p
  | r + 1 => (Piece.rotn p r).rot

/-- Overlap classification outcome. `part m` models `Partial(m)` carrying the
raw remainder bitmap (the source's `RawOverlap::Partial(u16)` /
`Overlap::_Partial(u16)`; the id-tagged `Overlap::Partial(usize)` is the same
datum through the bijective `Boop::store` id map). -/
inductive Overlap where
  | none
  | full
  | part (m : Nat)
  | neighbor
  deriving Repr, DecidableEq

/-- Accumulator of the loop inside `Piece::check`. -/
structure ChkAcc where
  allOver : Bool
  noneOver : Bool
  hasNeighbor : Bool
  out : Nat
  deriving Repr, DecidableEq

/-- One iteration of the loop in `Piece::check` (`piece.rs` lines 77–89),
for the cell `q` of `other`. -/
def chkStep (self : Piece) (dx dy : Int) (a : ChkAcc) (q : Int × Int) : ChkAcc :=
  let a' :=
    if self.at (q.1 + dx) (q.2 + dy) then
      { a with out := a.out ||| (1 <<< cellIdx q), noneOver := false }
    else
      { a with allOver := false }
  { a' with hasNeighbor := a'.hasNeighbor
      || self.at (q.1 + dx) (q.2 + dy + 1)
      || self.at (q.1 + dx) (q.2 + dy - 1)
      || self.at (q.1 + dx + 1) (q.2 + dy)
      || self.at (q.1 + dx - 1) (q.2 + dy) }

/-- The result classification at the end of `Piece::check`
(`piece.rs` lines 91–103). -/
def checkOut (a : ChkAcc) : Overlap :=
  if a.allOver then .full
  else if a.out ≠ 0 then .part a.out
  else if a.hasNeighbor then .neighbor
  else .none

/-- `Piece::check` (`piece.rs` lines 71–104): classify `other` offset by
`(dx, dy)` against the occupying `self`.  Note the source accumulates into
`out` the bit of every cell of `other` that IS covered by `self`. -/
def Piece.check (self other : Piece) (dx dy : Int) : Overlap :=
  checkOut (other.pts.foldl (chkStep self dx dy) ⟨true, true, false, 0⟩)

/-- The mask of the cells of `other` (shifted by `(dx, dy)`) NOT covered by
`self` — the "uncovered cells of `other` packed as a new mask" named by the
specification's description of `classify` (§4.1). -/
def uncoveredMask (self other : Piece) (dx dy : Int) : Nat :=
  bmpOfPts (other.pts.filter (fun q => ! self.at (q.1 + dx) (q.2 + dy)))

/-- Modelled from the spec: the overlap classification backing the
`OVERLAP_TABLES.at(remaining_piece).check(x, y, &p)` lookup used by
`State::try_place`.  The live table module (`OVERLAP_TABLES`, the
`Overlap::_Partial`-bearing classifier it is built from, and its lookup
wrapper) is not under `src/`; per §4.1/4.4 of the spec the lookup classifies
every occupied cell of the candidate (`other`) against the occupying shape
(`self`), returns `Full` iff all cells are covered, `Partial(remainder)` with
the *uncovered* cells as remainder iff some but not all are covered,
`Neighbor` iff none are covered but a 4-directional edge touches, else
`None`. -/
def tableCheck (self other : Piece) (dx dy : Int) : Overlap :=
  if other.pts.all (fun q => self.at (q.1 + dx) (q.2 + dy)) then .full
  else if other.pts.any (fun q => self.at (q.1 + dx) (q.2 + dy)) then
    .part (uncoveredMask self other dx dy)
  else if other.pts.any (fun q =>
      self.at (q.1 + dx) (q.2 + dy + 1) || self.at (q.1 + dx) (q.2 + dy - 1)
      || self.at (q.1 + dx + 1) (q.2 + dy) || self.at (q.1 + dx - 1) (q.2 + dy)) then
    .neighbor
  else .none

/-- Number of set bits of a 16-bit mask. -/
def bitCount (m : Nat) : Nat :=
  ((Finset.range 16).filter (fun i => m.testBit i)).card

/-! ## Bag (`bag.rs`) -/

/-- `UNIQUE_PIECE_COUNT`. -/
def UNIQUE_PIECE_COUNT : Nat := 10

/-- `MAX_ROTATIONS`. -/
def MAX_ROTATIONS : Nat := 4

/-- The multiset of remaining pieces: ten per-type counts
(`struct Bag { data: [usize; UNIQUE_PIECE_COUNT] }`). -/
structure Bag where
  data : List Nat
  deriving Repr, DecidableEq

/-- The digit list built by the loop in `Bag::from_usize`
(`data[i] = p % 3; p /= 3` for `i` in `0..n`). -/
def fromUsizeDigits : Nat → Nat → List Nat
  | 0, _ => []
  | n + 1, p => p % 3 :: fromUsizeDigits n (p / 3)

/-- `Bag::from_usize`. -/
def Bag.fromUsize (p : Nat) : Bag := ⟨fromUsizeDigits UNIQUE_PIECE_COUNT p⟩

/-- `Bag::as_usize`: the loop `for i in (0..n).rev() { p *= 3; p += data[i] }`
is the right fold below. -/
def Bag.asUsize (b : Bag) : Nat :=
  b.data.foldr (fun d acc => acc * 3 + d) 0

/-- `bag.data[i]` (reads of the count array). -/
def Bag.count (b : Bag) (i : Nat) : Nat := b.data.getD i 0

/-- `Bag::len`. -/
def Bag.len (b : Bag) : Nat := b.data.sum

/-- `Bag::is_empty`. -/
def Bag.isEmpty (b : Bag) : Bool := b.len = 0

/-- `Bag::take` (`bag.rs` lines 42–51): the argument is a packed id whose
type index is `id / MAX_ROTATIONS`; a zero count (or an out-of-range index)
panics in the source, modelled as `none`. -/
def Bag.take (b : Bag) (id : Nat) : Option Bag :=
  let index := id / MAX_ROTATIONS
  if index < b.data.length then
    if b.count index = 0 then none
    else some ⟨b.data.set index (b.count index - 1)⟩
  else none

/-- `Bag::contains`. -/
def Bag.contains (b other : Bag) : Bool :=
  (List.range UNIQUE_PIECE_COUNT).all (fun i => other.count i ≤ b.count i)

/-- `Bag::score_flat`: `Σ data[i] * i`. -/
def Bag.scoreFlat (b : Bag) : Nat :=
  ((List.range UNIQUE_PIECE_COUNT).map (fun i => b.count i * i)).sum

/-- Inner loop of `Bag::score_stacked`: for one type `p`, run
`score += p * (((remaining + 1) / 2) - 1); remaining -= 1` `c` times. -/
def stackedInner (p : Nat) : Nat → Nat × Nat → Nat × Nat
  | 0, acc => acc
  | c + 1, (score, remaining) =>
      stackedInner p c (score + p * ((remaining + 1) / 2 - 1), remaining - 1)

/-- `Bag::score_stacked`. -/
def Bag.scoreStacked (b : Bag) : Nat :=
  (((List.range UNIQUE_PIECE_COUNT).reverse).foldl
      (fun acc p => stackedInner p (b.count p) acc) (0, b.len)).1

/-- The `while self.i < UNIQUE_PIECE_COUNT && self.bag.data[self.i] == 0`
skip loop of `BagIterator::next`, with an explicit step counter (the loop
advances `i` towards `UNIQUE_PIECE_COUNT`, so `UNIQUE_PIECE_COUNT - i`
steps always suffice). -/
def skipZerosAux (b : Bag) : Nat → Nat → Nat
  | 0, i => i
  | fuel + 1, i =>
    if i < UNIQUE_PIECE_COUNT ∧ b.count i = 0 then skipZerosAux b fuel (i + 1)
    else i

/-- The skip loop of `BagIterator::next` starting at index `i`. -/
def skipZeros (b : Bag) (i : Nat) : Nat :=
  skipZerosAux b (UNIQUE_PIECE_COUNT - i) i

/-- `BagIterator::next` on the iterator state `(i, r)`
(`bag.rs` lines 106–127). -/
def bagNext (b : Bag) (st : Nat × Nat) : Option (Nat × Nat × Nat) :=
  let i := skipZeros b st.1
  if i = UNIQUE_PIECE_COUNT then none
  else
    some (i * MAX_ROTATIONS + st.2,
      if st.2 + 1 = MAX_ROTATIONS then (i + 1, 0) else (i, st.2 + 1))

/-- Drain the iterator from state `st`, with fuel bounding the number of
`next` calls. -/
def bagRun (b : Bag) : Nat → Nat × Nat → List Nat
  | 0, _ => []
  | fuel + 1, st =>
    match bagNext b st with
    | Option.none => []
    | some (out, st') => out :: bagRun b fuel st'

/-- The full yield sequence of `&bag.into_iter()` (initial state
`{ i: 0, r: 0 }`; 41 calls suffice: the packed position `4*i + r` strictly
increases and is bounded by 40). -/
def bagToList (b : Bag) : List Nat := bagRun b 41 (0, 0)

/-! ## Placed and State (`state.rs`) -/

/-- One committed placement (`struct Placed`): packed type+rotation id,
position, layer. -/
structure Placed where
  id : Nat
  x : Int
  y : Int
  z : Nat
  deriving Repr, DecidableEq

/-- `Placed::rot`. -/
def Placed.rot (p : Placed) : Nat := p.id % MAX_ROTATIONS

/-- `Placed.index`. -/
def Placed.index (p : Placed) : Nat := p.id / MAX_ROTATIONS

/-- The `Ord for Placed` comparison as a boolean `≤`: layer descending,
then `(id, x, y)` ascending. -/
def Placed.leb (a b : Placed) : Bool :=
  if a.z ≠ b.z then b.z < a.z
  else if a.id ≠ b.id then a.id < b.id
  else if a.x ≠ b.x then a.x < b.x
  else a.y ≤ b.y

/-- `State`: the ordered list of placements (an `ArrayVec` of capacity 20 in
the source; capacity only matters for a push panic that no claim touches). -/
structure State where
  pieces : List Placed
  deriving Repr, DecidableEq

/-- `State::new`. -/
def State.new : State := ⟨[]⟩

/-- Insert into a `Placed.leb`-sorted list. -/
def insertSorted (p : Placed) : List Placed → List Placed
  | [] => [p]
  | q :: t => if Placed.leb p q then p :: q :: t else q :: insertSorted p t

/-- The `sort_unstable` call in `State::insert`.  `Placed::cmp` is a total
order whose ties are identical records, so every comparison sort computes
the same list; we use insertion sort. -/
def sortPlaced (l : List Placed) : List Placed := l.foldr insertSorted []

/-- Minimum of a list of integers, as produced by
`iter().map(..).min().unwrap()` on a non-empty list (0 for the empty list,
which the source never queries). -/
def minList : List Int → Int
  | [] => 0
  | a :: t => t.foldl min a

/-- `State::insert` (`state.rs` lines 62–75): push, sort, then renormalize
so the minimum x and y become 0. -/
def State.insert (s : State) (p : Placed) : State :=
  let l := sortPlaced (s.pieces ++ [p])
  let xmin := minList (l.map Placed.x)
  let ymin := minList (l.map Placed.y)
  ⟨l.map (fun q => { q with x := q.x - xmin, y := q.y - ymin })⟩

/-- `State::score`. -/
def State.score (s : State) : Nat :=
  (s.pieces.map (fun p => p.index * p.z)).sum

/-- `State::layers`: z of the first (topmost) entry, 0 when empty. -/
def State.layers (s : State) : Nat :=
  match s.pieces with
  | [] => 0
  | p :: _ => p.z

/-- Minimum x over a state's entries. -/
def State.minX (s : State) : Int := minList (s.pieces.map Placed.x)

/-- Minimum y over a state's entries. -/
def State.minY (s : State) : Int := minList (s.pieces.map Placed.y)

/-! ## Placement legality (`State::try_place`) -/

/-- The shape (rotated piece) named by a packed type+rotation id:
`PIECES[id / 4]` rotated `id % 4` times. -/
def shapeOfId (id : Nat) : Piece :=
  (Piece.fromU16 (PIECES.getD (id / MAX_ROTATIONS) 0)).rotn (id % MAX_ROTATIONS)

/-- A lookup function standing for
`OVERLAP_TABLES.at(remaining).check(x, y, &p)`: given the remaining
candidate bitmap, the candidate position `(x, y)` and a placed piece `p`,
classify the remaining cells against `p`'s shape at the relative offset. -/
def Lookup : Type := Nat → Int → Int → Placed → Overlap

/-- Modelled from the spec: the table lookup of §4.4,
`table[remainingShape].at(offset, placedPiece.rotation, placedPiece.type)`,
with the §4.1 classification (uncovered-cells remainder); the live
`OVERLAP_TABLES` module is not under `src/`. The offset is the candidate
position relative to the placed piece. -/
def tableAt : Lookup := fun rem x y p =>
  tableCheck (shapeOfId p.id) (Piece.fromU16 rem) (x - p.x) (y - p.y)

/-- The same lookup built instead from `src/src/piece.rs`'s `Piece::check`
(covered-cells remainder), used to exhibit the divergence between the two
snapshots in `src/`. -/
def tableAtCovered : Lookup := fun rem x y p =>
  Piece.check (shapeOfId p.id) (Piece.fromU16 rem) (x - p.x) (y - p.y)

/-- The placed-pieces scan of `State::try_place` (`state.rs` lines 122–156),
parametrized by the table lookup.  Arguments after the list: current layer
`cz`, `got_neighbor_prev_layer`, `got_neighbor_this_layer`, and the
remaining candidate bitmap (`remaining_piece`; ids and bitmaps are in
bijection through `Boop::store`).  Returns the accepted layer, if any. -/
def tpGo (lk : Lookup) (orig : Nat) (x y : Int) :
    List Placed → Nat → Bool → Bool → Nat → Option Nat
  | [], _, _, nthis, rem =>
    if nthis ∧ rem = orig then some 0 else Option.none
  | p :: rest, cz, nprev, nthis, rem =>
    if p.z ≠ cz ∧ rem ≠ orig then Option.none
    else
      let cz' := if p.z ≠ cz then p.z else cz
      let nprev' := if p.z ≠ cz then nthis else nprev
      let nthis' := if p.z ≠ cz then false else nthis
      let rem' := if p.z ≠ cz then orig else rem
      match lk rem' x y p with
      | Overlap.none => tpGo lk orig x y rest cz' nprev' nthis' rem'
      | Overlap.neighbor => tpGo lk orig x y rest cz' nprev' true rem'
      | Overlap.part t => tpGo lk orig x y rest cz' nprev' nthis' t
      | Overlap.full =>
        if rem' ≠ orig ∧ nprev' then some (p.z + 1) else Option.none

/-- `State::try_place`, parametrized by the table lookup. -/
def tryPlaceWith (lk : Lookup) (s : State) (piece : Nat) (x y : Int) :
    Option State :=
  if s.pieces.isEmpty then
    if x = 0 ∧ y = 0 then
      let p : Placed := ⟨piece, x, y, 0⟩
      if p.rot = 0 then some (s.insert p) else Option.none
    else Option.none
  else
    let orig := (shapeOfId piece).bmp
    match tpGo lk orig x y s.pieces s.layers true false orig with
    | some z => some (s.insert ⟨piece, x, y, z⟩)
    | Option.none => Option.none

/-- `State::try_place` with the (spec-modelled) overlap tables. -/
def tryPlace (s : State) (piece : Nat) (x y : Int) : Option State :=
  tryPlaceWith tableAt s piece x y

/-- Run the scan over a prefix of the placed list without exiting: `some`
of the updated `(currentZ, neighborPrev, neighborThis, remaining)`
accumulator, or `none` if the scan exits early (rejection or a `Full`
decision) inside the prefix. -/
def tpSteps (lk : Lookup) (orig : Nat) (x y : Int) :
    List Placed → Nat × Bool × Bool × Nat → Option (Nat × Bool × Bool × Nat)
  | [], acc => some acc
  | p :: rest, (cz, nprev, nthis, rem) =>
    if p.z ≠ cz ∧ rem ≠ orig then Option.none
    else
      let cz' := if p.z ≠ cz then p.z else cz
      let nprev' := if p.z ≠ cz then nthis else nprev
      let nthis' := if p.z ≠ cz then false else nthis
      let rem' := if p.z ≠ cz then orig else rem
      match lk rem' x y p with
      | Overlap.none => tpSteps lk orig x y rest (cz', nprev', nthis', rem')
      | Overlap.neighbor => tpSteps lk orig x y rest (cz', nprev', true, rem')
      | Overlap.part t => tpSteps lk orig x y rest (cz', nprev', nthis', t)
      | Overlap.full => Option.none

/-! ## Results (`results.rs`) -/

/-- The memoized score table: exact scores (present once solved) and the
per-key deltas. -/
structure Results where
  scores : Nat → Option Nat
  deltas : Nat → Nat

/-- `Results::new`: no scores solved yet; `deltas[i]` is
`Bag::from_usize(i).score_flat()`. -/
def Results.new : Results :=
  { scores := fun _ => Option.none,
    deltas := fun i => (Bag.fromUsize i).scoreFlat }

/-- `Results::write_score`. -/
def Results.writeScore (r : Results) (target score : Nat) : Results :=
  { r with scores := fun i => if i = target then some score else r.scores i }

/-- A `Results` value after any sequence of `write_score` calls. -/
def applyWrites (r : Results) (ws : List (Nat × Nat)) : Results :=
  ws.foldl (fun acc w => acc.writeScore w.1 w.2) r

/-- `Results::upper_score_bound` (`results.rs` lines 49–59). -/
def Results.upperScoreBound (r : Results) (bag : Bag) (state : State) : Nat :=
  let layers := state.layers
  let b := bag.asUsize
  let score :=
    match r.scores b with
    | some availableScore => availableScore
    | Option.none => bag.scoreStacked
  score + (layers + 1) * r.deltas b

/-- A bag whose count array is well-formed: ten digits, each in {0, 1, 2}. -/
def validBag (b : Bag) : Prop :=
  b.data.length = UNIQUE_PIECE_COUNT ∧ ∀ d ∈ b.data, d < 3

/-! ## Overlap-table construction (`tables.rs` / `piece.rs`, `Boop::build_tables`) -/

/-- The offset window `-MAX_EDGE_LENGTH..=MAX_EDGE_LENGTH` of the table
build loop. -/
def offsetWindow : List Int := (List.range 9).map (fun k => (k : Int) - 4)

/-- The `Partial` remainder bitmaps produced while processing one queue
entry `t` in `Boop::build_tables`: the triple loop over candidate type `i`,
rotation `r` and window offset `(x, y)` evaluating
`Piece::from_u16(PIECES[i]).rotⁿ.check(&t, x, y)`. -/
def remaindersOf (t : Nat) : List Nat :=
  (List.range UNIQUE_PIECE_COUNT).flatMap fun i =>
    (List.range MAX_ROTATIONS).flatMap fun r =>
      offsetWindow.flatMap fun x =>
        offsetWindow.filterMap fun y =>
          match Piece.check ((Piece.fromU16 (PIECES.getD i 0)).rotn r)
              (Piece.fromU16 t) x y with
          | Overlap.part p => some p
          | _ => Option.none

/-- The enqueue filter of the build loop: for each remainder, push it onto
the queue and record it only if `Boop::store` has not seen its bitmap yet
(`if out.store(p).1 { todo.push_back(p) }`).  The seen-set stands for the
domain of the `ids` map. -/
def enqueueNew : List Nat → List Nat × Finset Nat → List Nat × Finset Nat
  | [], qs => qs
  | p :: ps, (q, seen) =>
    if p ∈ seen then enqueueNew ps (q, seen)
    else enqueueNew ps (q ++ [p], insert p seen)

/-- One round of the `while let Some(t) = todo.pop_front()` loop, acting on
the queue and the seen-set. -/
def bfsRound : List Nat × Finset Nat → List Nat × Finset Nat
  | ([], seen) => ([], seen)
  | (t :: q, seen) => enqueueNew (remaindersOf t) (q, seen)

/-- Termination measure for the build loop: queue length plus the number of
16-bit bitmaps not yet seen. -/
def bfsMeasure (qs : List Nat × Finset Nat) : Nat :=
  qs.1.length + ((Finset.range 65536) \ qs.2).card

/-! ## Helper lemmas -/

theorem fromUsizeDigits_length (k p : Nat) : (fromUsizeDigits k p).length = k := by
  induction k generalizing p with
  | zero => rfl
  | succ k ih => simp [fromUsizeDigits, ih]

theorem foldr_fromUsizeDigits (k : Nat) :
    ∀ p : Nat, p < 3 ^ k →
      (fromUsizeDigits k p).foldr (fun d acc => acc * 3 + d) 0 = p := by
  induction k with
  | zero =>
    intro p hp
    simp [pow_zero] at hp
    simp [fromUsizeDigits, hp]
  | succ k ih =>
    intro p hp
    have hp3 : p / 3 < 3 ^ k := by
      rw [Nat.div_lt_iff_lt_mul (by norm_num)]
      calc p < 3 ^ (k + 1) := hp
        _ = 3 ^ k * 3 := by rw [pow_succ]
    simp only [fromUsizeDigits, List.foldr_cons]
    rw [ih (p / 3) hp3]
    omega

theorem fromUsizeDigits_foldr (l : List Nat) (h : ∀ d ∈ l, d < 3) :
    fromUsizeDigits l.length (l.foldr (fun d acc => acc * 3 + d) 0) = l := by
  induction l with
  | nil => rfl
  | cons d t ih =>
    have hd : d < 3 := h d (List.mem_cons_self d t)
    simp only [List.length_cons, fromUsizeDigits, List.foldr_cons]
    have h1 : (t.foldr (fun d acc => acc * 3 + d) 0 * 3 + d) % 3 = d := by omega
    have h2 : (t.foldr (fun d acc => acc * 3 + d) 0 * 3 + d) / 3 =
        t.foldr (fun d acc => acc * 3 + d) 0 := by omega
    rw [h1, h2, ih (fun e he => h e (List.mem_cons_of_mem d he))]

theorem asUsize_fromUsize {n : Nat} (h : n < 3 ^ UNIQUE_PIECE_COUNT) :
    (Bag.fromUsize n).asUsize = n :=
  foldr_fromUsizeDigits UNIQUE_PIECE_COUNT n h

theorem fromUsize_asUsize {b : Bag} (h : validBag b) :
    Bag.fromUsize b.asUsize = b := by
  obtain ⟨hlen, hdig⟩ := h
  show Bag.mk (fromUsizeDigits UNIQUE_PIECE_COUNT (Bag.asUsize b)) = b
  rw [← hlen]
  cases b with
  | mk data => simpa [Bag.asUsize] using congrArg Bag.mk (fromUsizeDigits_foldr data hdig)

theorem getD_set_self :
    ∀ (l : List Nat) (i v : Nat), i < l.length → (l.set i v).getD i 0 = v := by
  intro l
  induction l with
  | nil => intro i v h; simp at h
  | cons a t ih =>
    intro i v h
    cases i with
    | zero => rfl
    | succ i => simpa using ih i v (by simpa using h)

theorem getD_set_ne :
    ∀ (l : List Nat) (i j v : Nat), i ≠ j → (l.set i v).getD j 0 = l.getD j 0 := by
  intro l
  induction l with
  | nil => intro i j v _; rfl
  | cons a t ih =>
    intro i j v hne
    cases i with
    | zero =>
      cases j with
      | zero => exact absurd rfl hne
      | succ j => rfl
    | succ i =>
      cases j with
      | zero => rfl
      | succ j => simpa using ih i j v (by omega)

theorem sum_set_add :
    ∀ (l : List Nat) (i v : Nat), i < l.length →
      (l.set i v).sum + l.getD i 0 = l.sum + v := by
  intro l
  induction l with
  | nil => intro i v h; simp at h
  | cons a t ih =>
    intro i v h
    cases i with
    | zero => simp [List.sum_cons]; omega
    | succ i =>
      have := ih i v (by simpa using h)
      simp only [List.set, List.sum_cons, List.getD_cons_succ]
      omega

theorem length_insertSorted (p : Placed) :
    ∀ l : List Placed, (insertSorted p l).length = l.length + 1 := by
  intro l
  induction l with
  | nil => rfl
  | cons q t ih =>
    simp only [insertSorted]
    split
    · rfl
    · simpa using ih

theorem length_sortPlaced (l : List Placed) :
    (sortPlaced l).length = l.length := by
  induction l with
  | nil => rfl
  | cons p t ih =>
    show (insertSorted p (sortPlaced t)).length = t.length + 1
    rw [length_insertSorted, ih]

theorem foldl_min_sub (c : Int) :
    ∀ (l : List Int) (a : Int),
      (l.map (fun x => x - c)).foldl min (a - c) = l.foldl min a - c := by
  intro l
  induction l with
  | nil => intro a; rfl
  | cons b t ih =>
    intro a
    simp only [List.map_cons, List.foldl_cons]
    rw [min_sub_sub_right a b c]
    exact ih (min a b)

theorem minList_cons_map_sub (c : Int) (a : Int) (l : List Int) :
    minList ((a :: l).map (fun x => x - c)) = minList (a :: l) - c := by
  simp only [List.map_cons, minList]
  exact foldl_min_sub c l a

/-! ## Claims -/

/-- C1 (code bug): `Piece::check` in `src/src/piece.rs` returns
`Partial(covered)`, the mask of the COVERED cells of `other`, not the
uncovered cells the claim (and the spec, §4.1) names.  At the failing input
(piece 0 occupying, piece 1 as candidate, offset (0,0)) the code yields the
covered mask `0b1100000000000100`, while the uncovered mask is
`0b0000010001000000`.  The last two conjuncts show the spec is the intent:
`state.rs`'s own test demands `try_place(4, 2, 0)` succeed on two adjacent
0-pieces, which happens with the uncovered-remainder classifier and fails
with the covered-remainder one. -/
theorem c1_check_remainder_covered_not_uncovered :
    Piece.check (Piece.fromU16 0b1110101010101110)
        (Piece.fromU16 0b1100010001000100) 0 0 =
      Overlap.part 0b1100000000000100 ∧
    uncoveredMask (Piece.fromU16 0b1110101010101110)
        (Piece.fromU16 0b1100010001000100) 0 0 = 0b0000010001000000 ∧
    (0b1100000000000100 : Nat) ≠ 0b0000010001000000 ∧
    tryPlaceWith tableAtCovered ⟨[⟨0, 0, 0, 0⟩, ⟨0, 3, 0, 0⟩]⟩ 4 2 0 =
      Option.none ∧
    tryPlaceWith tableAt ⟨[⟨0, 0, 0, 0⟩, ⟨0, 3, 0, 0⟩]⟩ 4 2 0 =
      some ⟨[⟨4, 2, 0, 1⟩, ⟨0, 0, 0, 0⟩, ⟨0, 3, 0, 0⟩]⟩ := by
  refine ⟨by decide, by decide, by decide, by decide, by decide⟩

/-- C7: decoding an index below `3^10` into a Bag and re-encoding returns
the index, and conversely re-decoding a valid Bag's encoding returns the
Bag: the encoding is a bijection between valid Bags and `[0, 3^10)`. -/
theorem c7_bag_encoding_bijection :
    (∀ n : Nat, n < 3 ^ UNIQUE_PIECE_COUNT → (Bag.fromUsize n).asUsize = n) ∧
    (∀ b : Bag, validBag b → Bag.fromUsize b.asUsize = b) :=
  ⟨fun _ h => asUsize_fromUsize h, fun _ h => fromUsize_asUsize h⟩

/-- Witness for C7 at `n = 59048` and a concrete valid bag. -/
theorem c7_bag_encoding_bijection_witness :
    (Bag.fromUsize 59048).asUsize = 59048 ∧
    Bag.fromUsize (Bag.asUsize ⟨[2, 1, 0, 0, 2, 0, 0, 0, 0, 2]⟩) =
      ⟨[2, 1, 0, 0, 2, 0, 0, 0, 0, 2]⟩ :=
  ⟨c7_bag_encoding_bijection.1 59048 (by decide),
   c7_bag_encoding_bijection.2 _ ⟨by decide, by decide⟩⟩

/-- C9: `Bag::take` on a zero count for the targeted type fails (panics,
modelled as `none`); on a positive count it returns a bag with that type's
count one less, `len` one less, and every other count unchanged. -/
theorem c9_take_semantics :
    ∀ (b : Bag) (id : Nat), b.data.length = UNIQUE_PIECE_COUNT →
      id < UNIQUE_PIECE_COUNT * MAX_ROTATIONS →
      (b.count (id / MAX_ROTATIONS) = 0 → b.take id = Option.none) ∧
      (0 < b.count (id / MAX_ROTATIONS) →
        ∃ b', b.take id = some b' ∧
          b'.count (id / MAX_ROTATIONS) = b.count (id / MAX_ROTATIONS) - 1 ∧
          b'.len = b.len - 1 ∧
          ∀ t, t < UNIQUE_PIECE_COUNT → t ≠ id / MAX_ROTATIONS →
            b'.count t = b.count t) := by
  intro b id hlen hid
  have hidx : id / MAX_ROTATIONS < b.data.length := by
    rw [hlen]
    simp only [UNIQUE_PIECE_COUNT, MAX_ROTATIONS] at hid ⊢
    omega
  constructor
  · intro h0
    simp [Bag.take, hidx, h0]
  · intro hpos
    refine ⟨⟨b.data.set (id / MAX_ROTATIONS) (b.count (id / MAX_ROTATIONS) - 1)⟩,
      ?_, ?_, ?_, ?_⟩
    · simp [Bag.take, hidx, Nat.not_eq_zero_of_lt hpos]
    · exact getD_set_self b.data _ _ hidx
    · show (b.data.set _ _).sum = b.data.sum - 1
      have := sum_set_add b.data (id / MAX_ROTATIONS)
        (b.count (id / MAX_ROTATIONS) - 1) hidx
      have hc : b.data.getD (id / MAX_ROTATIONS) 0 =
          b.count (id / MAX_ROTATIONS) := rfl
      omega
    · intro t _ hne
      exact getD_set_ne b.data _ t _ (fun he => hne he.symm)

/-- Witness for C9: both branches at concrete bags. -/
theorem c9_take_semantics_witness :
    ((Bag.fromUsize 0).take 3 = Option.none) ∧
    (∃ b', (Bag.fromUsize 1).take 3 = some b' ∧
      b'.count (3 / MAX_ROTATIONS) = (Bag.fromUsize 1).count (3 / MAX_ROTATIONS) - 1 ∧
      b'.len = (Bag.fromUsize 1).len - 1 ∧
      ∀ t, t < UNIQUE_PIECE_COUNT → t ≠ 3 / MAX_ROTATIONS →
        b'.count t = (Bag.fromUsize 1).count t) :=
  ⟨(c9_take_semantics (Bag.fromUsize 0) 3 (by decide) (by decide)).1 (by decide),
   (c9_take_semantics (Bag.fromUsize 1) 3 (by decide) (by decide)).2 (by decide)⟩

/-- C10: `Bag::take` keys on `id / MAX_ROTATIONS`, so all four rotation ids
of a type behave identically; `take(3)` removes a copy of type 0 and
`take(4)` on a bag holding only type 0 fails. -/
theorem c10_take_packed_id :
    (∀ (b : Bag) (id : Nat), id < UNIQUE_PIECE_COUNT * MAX_ROTATIONS →
        b.take id = b.take (MAX_ROTATIONS * (id / MAX_ROTATIONS))) ∧
    (Bag.fromUsize 1).take 3 = some ⟨[0, 0, 0, 0, 0, 0, 0, 0, 0, 0]⟩ ∧
    (Bag.fromUsize 1).take 4 = Option.none := by
  refine ⟨?_, by decide, by decide⟩
  intro b id _
  have h : MAX_ROTATIONS * (id / MAX_ROTATIONS) / MAX_ROTATIONS =
      id / MAX_ROTATIONS := by
    simp only [MAX_ROTATIONS]
    omega
  simp [Bag.take, h]

/-- Witness for C10 at `id = 7`. -/
theorem c10_take_packed_id_witness :
    (Bag.fromUsize 1).take 7 =
      (Bag.fromUsize 1).take (MAX_ROTATIONS * (7 / MAX_ROTATIONS)) :=
  c10_take_packed_id.1 (Bag.fromUsize 1) 7 (by decide)

/-- C6: after every `State::insert` — for arbitrary prior states and
arbitrary inserted entries, negative coordinates included — the minimum x
and the minimum y over the resulting entries are both exactly 0. -/
theorem minList_normalized_x (a : Placed) (t : List Placed) :
    minList (((a :: t).map (fun q : Placed =>
        { q with
          x := q.x - minList ((a :: t).map Placed.x),
          y := q.y - minList ((a :: t).map Placed.y) })).map Placed.x) = 0 := by
  rw [List.map_map]
  rw [show ((a :: t).map (Placed.x ∘ fun q : Placed =>
      { q with
        x := q.x - minList ((a :: t).map Placed.x),
        y := q.y - minList ((a :: t).map Placed.y) })) =
      ((a :: t).map Placed.x).map
        (fun x => x - minList ((a :: t).map Placed.x)) by
    rw [List.map_map]; rfl]
  rw [show (a :: t).map Placed.x = a.x :: t.map Placed.x from rfl]
  rw [minList_cons_map_sub]
  omega

theorem minList_normalized_y (a : Placed) (t : List Placed) :
    minList (((a :: t).map (fun q : Placed =>
        { q with
          x := q.x - minList ((a :: t).map Placed.x),
          y := q.y - minList ((a :: t).map Placed.y) })).map Placed.y) = 0 := by
  rw [List.map_map]
  rw [show ((a :: t).map (Placed.y ∘ fun q : Placed =>
      { q with
        x := q.x - minList ((a :: t).map Placed.x),
        y := q.y - minList ((a :: t).map Placed.y) })) =
      ((a :: t).map Placed.y).map
        (fun y => y - minList ((a :: t).map Placed.y)) by
    rw [List.map_map]; rfl]
  rw [show (a :: t).map Placed.y = a.y :: t.map Placed.y from rfl]
  rw [minList_cons_map_sub]
  omega

theorem c6_insert_normalizes_min_to_zero :
    ∀ (s : State) (p : Placed),
      (s.insert p).minX = 0 ∧ (s.insert p).minY = 0 := by
  intro s p
  have hins : s.insert p = ⟨(sortPlaced (s.pieces ++ [p])).map (fun q : Placed =>
      { q with
        x := q.x - minList ((sortPlaced (s.pieces ++ [p])).map Placed.x),
        y := q.y - minList ((sortPlaced (s.pieces ++ [p])).map Placed.y) })⟩ :=
    rfl
  have hlen : (sortPlaced (s.pieces ++ [p])).length = s.pieces.length + 1 := by
    rw [length_sortPlaced]
    simp
  cases hc : sortPlaced (s.pieces ++ [p]) with
  | nil => rw [hc] at hlen; simp at hlen
  | cons a t =>
    rw [hc] at hins
    rw [hins]
    exact ⟨minList_normalized_x a t, minList_normalized_y a t⟩

theorem applyWrites_deltas (ws : List (Nat × Nat)) :
    ∀ r : Results, (applyWrites r ws).deltas = r.deltas := by
  induction ws with
  | nil => intro r; rfl
  | cons w t ih =>
    intro r
    show (applyWrites (r.writeScore w.1 w.2) t).deltas = r.deltas
    rw [ih]
    rfl

/-- C4: for every tail of `write_score` calls, every valid bag and every
state, `Results::upper_score_bound` equals the memoized exact score when
present (else `score_stacked`) plus `(layers + 1) * score_flat` — the stored
per-key delta being exactly the bag's `score_flat`. -/
theorem c4_upper_score_bound_formula :
    ∀ (ws : List (Nat × Nat)) (b : Bag) (s : State), validBag b →
      (applyWrites Results.new ws).upperScoreBound b s =
        ((applyWrites Results.new ws).scores b.asUsize).getD b.scoreStacked +
          (s.layers + 1) * b.scoreFlat := by
  intro ws b s hb
  have hdelta : (applyWrites Results.new ws).deltas b.asUsize = b.scoreFlat := by
    rw [applyWrites_deltas]
    show (Bag.fromUsize b.asUsize).scoreFlat = b.scoreFlat
    rw [fromUsize_asUsize hb]
  show (match (applyWrites Results.new ws).scores b.asUsize with
      | some availableScore => availableScore
      | Option.none => b.scoreStacked) +
      (s.layers + 1) * (applyWrites Results.new ws).deltas b.asUsize = _
  rw [hdelta]
  cases h : (applyWrites Results.new ws).scores b.asUsize <;> simp [h]

/-- Witness for C4 after one write, on a one-piece state. -/
theorem c4_upper_score_bound_formula_witness :
    (applyWrites Results.new [(3, 7)]).upperScoreBound (Bag.fromUsize 3)
        ⟨[⟨0, 0, 0, 0⟩]⟩ =
      ((applyWrites Results.new [(3, 7)]).scores (Bag.fromUsize 3).asUsize).getD
          (Bag.fromUsize 3).scoreStacked +
        ((⟨[⟨0, 0, 0, 0⟩]⟩ : State).layers + 1) * (Bag.fromUsize 3).scoreFlat :=
  c4_upper_score_bound_formula [(3, 7)] (Bag.fromUsize 3) ⟨[⟨0, 0, 0, 0⟩]⟩
    ⟨by decide, by decide⟩

theorem skipZeros_of_stop {b : Bag} {i : Nat}
    (h : ¬(i < UNIQUE_PIECE_COUNT ∧ b.count i = 0)) : skipZeros b i = i := by
  unfold skipZeros
  cases hf : UNIQUE_PIECE_COUNT - i with
  | zero => rfl
  | succ f => simp [skipZerosAux, h]

theorem skipZeros_of_zero {b : Bag} {i : Nat}
    (h1 : i < UNIQUE_PIECE_COUNT) (h2 : b.count i = 0) :
    skipZeros b i = skipZeros b (i + 1) := by
  unfold skipZeros
  have hstep : UNIQUE_PIECE_COUNT - i = (UNIQUE_PIECE_COUNT - (i + 1)) + 1 := by
    simp only [UNIQUE_PIECE_COUNT] at h1 ⊢
    omega
  rw [hstep]
  simp [skipZerosAux, h1, h2]

theorem bagNext_shift {b : Bag} {i : Nat} (r : Nat)
    (h1 : i < UNIQUE_PIECE_COUNT) (h2 : b.count i = 0) :
    bagNext b (i, r) = bagNext b (i + 1, r) := by
  unfold bagNext
  rw [skipZeros_of_zero h1 h2]

theorem bagRun_shift {b : Bag} {i : Nat} (fuel r : Nat)
    (h1 : i < UNIQUE_PIECE_COUNT) (h2 : b.count i = 0) :
    bagRun b fuel (i, r) = bagRun b fuel (i + 1, r) := by
  cases fuel with
  | zero => rfl
  | succ f => simp only [bagRun, bagNext_shift r h1 h2]

theorem bagRun_spec (b : Bag) :
    ∀ (n i : Nat), i + n = UNIQUE_PIECE_COUNT →
      ∀ fuel, 4 * n + 1 ≤ fuel →
        bagRun b fuel (i, 0) =
          ((List.range' i n).filter (fun t => b.count t != 0)).flatMap
            (fun t => [t * MAX_ROTATIONS, t * MAX_ROTATIONS + 1,
              t * MAX_ROTATIONS + 2, t * MAX_ROTATIONS + 3]) := by
  intro n
  induction n with
  | zero =>
    intro i hi fuel hf
    obtain ⟨f, rfl⟩ : ∃ f, fuel = f + 1 := ⟨fuel - 1, by omega⟩
    have hi10 : i = UNIQUE_PIECE_COUNT := by omega
    subst hi10
    have hs : skipZeros b UNIQUE_PIECE_COUNT = UNIQUE_PIECE_COUNT :=
      skipZeros_of_stop (fun hh => Nat.lt_irrefl _ hh.1)
    simp [bagRun, bagNext, hs]
  | succ n ih =>
    intro i hi fuel hf
    have hi10 : i < UNIQUE_PIECE_COUNT := by omega
    rw [List.range'_succ]
    by_cases hz : b.count i = 0
    · rw [bagRun_shift fuel 0 hi10 hz, ih (i + 1) (by omega) fuel (by omega)]
      simp [List.filter_cons, hz]
    · obtain ⟨f, rfl⟩ : ∃ f, fuel = (((f + 1) + 1) + 1) + 1 :=
        ⟨fuel - 4, by omega⟩
      have hs : skipZeros b i = i := skipZeros_of_stop (fun hh => hz hh.2)
      have hne : ¬ i = UNIQUE_PIECE_COUNT := by omega
      have e0 : bagNext b (i, 0) = some (i * MAX_ROTATIONS + 0, (i, 1)) := by
        unfold bagNext
        rw [hs]
        simp [hne, MAX_ROTATIONS]
      have e1 : bagNext b (i, 1) = some (i * MAX_ROTATIONS + 1, (i, 2)) := by
        unfold bagNext
        rw [hs]
        simp [hne, MAX_ROTATIONS]
      have e2 : bagNext b (i, 2) = some (i * MAX_ROTATIONS + 2, (i, 3)) := by
        unfold bagNext
        rw [hs]
        simp [hne, MAX_ROTATIONS]
      have e3 : bagNext b (i, 3) = some (i * MAX_ROTATIONS + 3, (i + 1, 0)) := by
        unfold bagNext
        rw [hs]
        simp [hne, MAX_ROTATIONS]
      simp only [bagRun, e0, e1, e2, e3]
      rw [ih (i + 1) (by omega) f (by omega)]
      simp [List.filter_cons, hz]

/-- C3 (amended): iterating a Bag yields, for each type with nonzero
remaining count, that type's four packed type+rotation ids exactly once, in
increasing type order — independent of whether the count is 1 or 2. -/
theorem c3_iteration_per_type :
    ∀ b : Bag,
      bagToList b =
        ((List.range UNIQUE_PIECE_COUNT).filter
            (fun t => b.count t != 0)).flatMap
          (fun t => [t * MAX_ROTATIONS, t * MAX_ROTATIONS + 1,
            t * MAX_ROTATIONS + 2, t * MAX_ROTATIONS + 3]) := by
  intro b
  show bagRun b 41 (0, 0) = _
  rw [bagRun_spec b UNIQUE_PIECE_COUNT 0 (by omega) 41 (by decide),
    List.range_eq_range']

/-- C3 counterexample: a bag holding two physical copies of type 0
(`from_usize 2`) yields type 0's pieces exactly as many times as a bag
holding one copy (`from_usize 1`) — four times each — not twice as many. -/
theorem c3_two_copies_not_twice :
    ¬ ((bagToList (Bag.fromUsize 2)).countP
          (fun id => id / MAX_ROTATIONS == 0) =
        2 * (bagToList (Bag.fromUsize 1)).countP
          (fun id => id / MAX_ROTATIONS == 0)) := by
  decide

theorem tpGo_append (lk : Lookup) (orig : Nat) (x y : Int) :
    ∀ (pre : List Placed) (cz : Nat) (np nt : Bool) (rem cz' : Nat)
      (np' nt' : Bool) (rem' : Nat),
      tpSteps lk orig x y pre (cz, np, nt, rem) = some (cz', np', nt', rem') →
      ∀ rest, tpGo lk orig x y (pre ++ rest) cz np nt rem =
        tpGo lk orig x y rest cz' np' nt' rem' := by
  intro pre
  induction pre with
  | nil =>
    intro cz np nt rem cz' np' nt' rem' h rest
    simp only [tpSteps, Option.some.injEq, Prod.mk.injEq] at h
    obtain ⟨rfl, rfl, rfl, rfl⟩ := h
    rfl
  | cons p t ih =>
    intro cz np nt rem cz' np' nt' rem' h rest
    simp only [tpSteps] at h
    simp only [List.cons_append, tpGo]
    split at h
    · exact absurd h (by simp)
    · next hguard =>
      rw [if_neg hguard]
      cases hk : lk (if p.z ≠ cz then orig else rem) x y p with
      | none =>
        simp only [hk] at h ⊢
        exact ih _ _ _ _ _ _ _ _ h rest
      | neighbor =>
        simp only [hk] at h ⊢
        exact ih _ _ _ _ _ _ _ _ h rest
      | part m =>
        simp only [hk] at h ⊢
        exact ih _ _ _ _ _ _ _ _ h rest
      | full =>
        simp only [hk] at h
        exact absurd h (by simp)

/-- C2: during the `try_place` scan of a non-empty board, when the table
lookup for a placed piece `p` on the current layer yields `Full`, the
candidate is accepted at `z = p.z + 1` iff the tracked remaining bitmap has
already been narrowed from the candidate's original shape and a neighbor
was seen on the previous (higher) layer; otherwise the placement is
rejected.  In particular re-placing the identical piece at the identical
position on a one-piece board is rejected (second conjunct). -/
theorem c2_full_accept_iff :
    (∀ (s : State) (piece : Nat) (x y : Int) (pre post : List Placed)
        (p : Placed) (cz : Nat) (np nt : Bool) (rem : Nat),
      s.pieces = pre ++ p :: post →
      tpSteps tableAt ((shapeOfId piece).bmp) x y pre
          (s.layers, true, false, (shapeOfId piece).bmp) =
        some (cz, np, nt, rem) →
      p.z = cz →
      tableAt rem x y p = Overlap.full →
      tryPlace s piece x y =
        if rem ≠ (shapeOfId piece).bmp ∧ np = true then
          some (s.insert ⟨piece, x, y, p.z + 1⟩)
        else Option.none) ∧
    tryPlace ⟨[⟨0, 0, 0, 0⟩]⟩ 0 0 0 = Option.none := by
  constructor
  · intro s piece x y pre post p cz np nt rem hs hsteps hz hfull
    have hne : s.pieces.isEmpty = false := by
      rw [hs]
      rcases pre with _ | ⟨a, t⟩ <;> rfl
    show tryPlaceWith tableAt s piece x y = _
    unfold tryPlaceWith
    rw [hne]
    simp only [Bool.false_eq_true, if_false]
    rw [hs, tpGo_append tableAt ((shapeOfId piece).bmp) x y pre s.layers true
      false ((shapeOfId piece).bmp) cz np nt rem hsteps (p :: post)]
    have hguard : ¬ (p.z ≠ cz ∧ rem ≠ (shapeOfId piece).bmp) :=
      fun hh => hh.1 hz
    simp only [tpGo, if_neg hguard, hz, ne_eq, not_true_eq_false,
      if_false, ite_self]
    simp only [false_and, if_false]
    rw [hfull]
    by_cases hcond : ¬ rem = (shapeOfId piece).bmp ∧ np = true
    · rw [if_pos hcond, if_pos hcond]
    · rw [if_neg hcond, if_neg hcond]
  · decide

/-- Witness for C2: on two adjacent 0-pieces, the candidate "1" at (2,0)
narrows over the first and is fully covered at the second with a neighbor
seen, so it is accepted at z = 1. -/
theorem c2_full_accept_iff_witness :
    tryPlace ⟨[⟨0, 0, 0, 0⟩, ⟨0, 3, 0, 0⟩]⟩ 4 2 0 =
      some ((⟨[⟨0, 0, 0, 0⟩, ⟨0, 3, 0, 0⟩]⟩ : State).insert ⟨4, 2, 0, 1⟩) :=
  (c2_full_accept_iff.1 ⟨[⟨0, 0, 0, 0⟩, ⟨0, 3, 0, 0⟩]⟩ 4 2 0 [⟨0, 0, 0, 0⟩]
      [] ⟨0, 3, 0, 0⟩ 0 true false 17476 rfl (by decide) rfl
      (by decide)).trans (by decide)

theorem cellIdx_cellOf {i : Nat} (h : i < 16) : cellIdx (cellOf i) = i := by
  unfold cellIdx cellOf
  omega

theorem cellIdx_lt_of_mem_pts {m : Nat} {q : Int × Int}
    (h : q ∈ (Piece.fromU16 m).pts) : cellIdx q < 16 := by
  simp only [Piece.fromU16, List.mem_filterMap, List.mem_range] at h
  obtain ⟨i, hi, hq⟩ := h
  by_cases hb : m.testBit i
  · rw [if_pos hb] at hq
    rw [← Option.some.inj hq, cellIdx_cellOf hi]
    exact hi
  · rw [if_neg hb] at hq
    cases hq

theorem mem_pts_fromU16 {m : Nat} {q : Int × Int} :
    q ∈ (Piece.fromU16 m).pts ↔ ∃ i, i < 16 ∧ m.testBit i ∧ q = cellOf i := by
  simp only [Piece.fromU16, List.mem_filterMap, List.mem_range]
  constructor
  · rintro ⟨i, hi, hq⟩
    by_cases hb : m.testBit i
    · rw [if_pos hb] at hq
      exact ⟨i, hi, hb, (Option.some.inj hq).symm⟩
    · rw [if_neg hb] at hq
      cases hq
  · rintro ⟨i, hi, hb, rfl⟩
    exact ⟨i, hi, by rw [if_pos hb]⟩

theorem testBit_one_shiftLeft (k j : Nat) : (1 <<< k).testBit j = (k == j) := by
  rw [Nat.shiftLeft_eq, one_mul]
  by_cases h : k = j
  · subst h
    simp [Nat.testBit_two_pow]
  · simp [Nat.testBit_two_pow, h, Ne.symm h]

theorem testBit_bmpOfPts (l : List (Int × Int)) (j : Nat) :
    (bmpOfPts l).testBit j = l.any (fun q => cellIdx q == j) := by
  have key : ∀ (l : List (Int × Int)) (a : Nat),
      (l.foldl (fun b q => b ||| (1 <<< cellIdx q)) a).testBit j =
        (a.testBit j || l.any (fun q => cellIdx q == j)) := by
    intro l
    induction l with
    | nil => intro a; simp
    | cons q t ih =>
      intro a
      simp only [List.foldl_cons, List.any_cons]
      rw [ih, Nat.testBit_or, testBit_one_shiftLeft]
      cases a.testBit j <;> cases hc : (cellIdx q == j) <;> simp [hc]
  simpa using key l 0

theorem rotPt_four (q : Int × Int) : rotPt (rotPt (rotPt (rotPt q))) = q := by
  obtain ⟨a, b⟩ := q
  simp only [rotPt, Prod.mk.injEq]
  constructor <;> ring

theorem map_rotPt_four (l : List (Int × Int)) :
    (((l.map rotPt).map rotPt).map rotPt).map rotPt = l := by
  rw [List.map_map, List.map_map, List.map_map]
  rw [show ((rotPt ∘ rotPt) ∘ rotPt) ∘ rotPt = id from
    funext fun q => rotPt_four q]
  exact List.map_id l

/-- C8: for every 16-bit mask, decoding it into a piece and applying the
90° rotation four times yields a piece whose mask equals the original. -/
theorem c8_rot_fourth_identity :
    ∀ m : Nat, m < 65536 → ((((Piece.fromU16 m).rot).rot).rot).rot.toU16 = m := by
  intro m hm
  show bmpOfPts
    (((((Piece.fromU16 m).pts.map rotPt).map rotPt).map rotPt).map rotPt) = m
  rw [map_rotPt_four]
  apply Nat.eq_of_testBit_eq
  intro j
  rw [testBit_bmpOfPts]
  by_cases hj : j < 16
  · by_cases hb : m.testBit j
    · rw [hb]
      exact List.any_eq_true.mpr
        ⟨cellOf j, mem_pts_fromU16.mpr ⟨j, hj, hb, rfl⟩,
          by simp [cellIdx_cellOf hj]⟩
    · have hb' : m.testBit j = false := by simpa using hb
      rw [hb']
      rw [List.any_eq_false]
      rintro q hq
      obtain ⟨i, hi, hbi, rfl⟩ := mem_pts_fromU16.mp hq
      rw [cellIdx_cellOf hi]
      simp only [beq_iff_eq]
      intro he
      exact hb (he ▸ hbi)
  · have h1 : m.testBit j = false :=
      Nat.testBit_lt_two_pow
        (lt_of_lt_of_le hm
          (by calc (65536 : Nat) = 2 ^ 16 := by norm_num
            _ ≤ 2 ^ j := Nat.pow_le_pow_right (by norm_num) (by omega)))
    rw [h1]
    rw [List.any_eq_false]
    rintro q hq
    obtain ⟨i, hi, _, rfl⟩ := mem_pts_fromU16.mp hq
    rw [cellIdx_cellOf hi]
    simp only [beq_iff_eq]
    omega

/-- Witness for C8 at the mask of base piece 0. -/
theorem c8_rot_fourth_identity_witness :
    ((((Piece.fromU16 0b1110101010101110).rot).rot).rot).rot.toU16 =
      0b1110101010101110 :=
  c8_rot_fourth_identity 0b1110101010101110 (by decide)

theorem chkStep_out (self : Piece) (dx dy : Int) (a : ChkAcc) (q : Int × Int) :
    (chkStep self dx dy a q).out =
      if self.at (q.1 + dx) (q.2 + dy) then a.out ||| (1 <<< cellIdx q)
      else a.out := by
  by_cases h : self.at (q.1 + dx) (q.2 + dy) <;> simp [chkStep, h]

theorem chkStep_allOver (self : Piece) (dx dy : Int) (a : ChkAcc)
    (q : Int × Int) :
    (chkStep self dx dy a q).allOver =
      if self.at (q.1 + dx) (q.2 + dy) then a.allOver else false := by
  by_cases h : self.at (q.1 + dx) (q.2 + dy) <;> simp [chkStep, h]

theorem fold_out_testBit (self : Piece) (dx dy : Int) (j : Nat) :
    ∀ (l : List (Int × Int)) (a : ChkAcc),
      ((l.foldl (chkStep self dx dy) a).out).testBit j =
        (a.out.testBit j ||
          l.any (fun q => self.at (q.1 + dx) (q.2 + dy) && (cellIdx q == j))) := by
  intro l
  induction l with
  | nil => intro a; simp
  | cons q t ih =>
    intro a
    simp only [List.foldl_cons, List.any_cons]
    rw [ih]
    by_cases hc : self.at (q.1 + dx) (q.2 + dy)
    · rw [show (chkStep self dx dy a q).out = a.out ||| (1 <<< cellIdx q) by
        rw [chkStep_out, if_pos hc]]
      rw [Nat.testBit_or, testBit_one_shiftLeft]
      cases a.out.testBit j <;> cases hcj : (cellIdx q == j) <;> simp [hc, hcj]
    · rw [show (chkStep self dx dy a q).out = a.out by
        rw [chkStep_out, if_neg hc]]
      simp [hc]

theorem fold_allOver (self : Piece) (dx dy : Int) :
    ∀ (l : List (Int × Int)) (a : ChkAcc),
      (l.foldl (chkStep self dx dy) a).allOver =
        (a.allOver && l.all (fun q => self.at (q.1 + dx) (q.2 + dy))) := by
  intro l
  induction l with
  | nil => intro a; simp
  | cons q t ih =>
    intro a
    simp only [List.foldl_cons, List.all_cons]
    rw [ih]
    by_cases hc : self.at (q.1 + dx) (q.2 + dy)
    · rw [show (chkStep self dx dy a q).allOver = a.allOver by
        rw [chkStep_allOver, if_pos hc]]
      simp [hc]
    · rw [show (chkStep self dx dy a q).allOver = false by
        rw [chkStep_allOver, if_neg hc]]
      simp [hc]

theorem fold_out_lt (self : Piece) (dx dy : Int) :
    ∀ (l : List (Int × Int)) (a : ChkAcc), (∀ q ∈ l, cellIdx q < 16) →
      a.out < 2 ^ 16 → (l.foldl (chkStep self dx dy) a).out < 2 ^ 16 := by
  intro l
  induction l with
  | nil => intro a _ ha; exact ha
  | cons q t ih =>
    intro a hq ha
    simp only [List.foldl_cons]
    refine ih _ (fun p hp => hq p (List.mem_cons_of_mem q hp)) ?_
    rw [chkStep_out]
    by_cases hc : self.at (q.1 + dx) (q.2 + dy)
    · rw [if_pos hc]
      refine Nat.or_lt_two_pow ha ?_
      rw [Nat.shiftLeft_eq, one_mul]
      exact Nat.pow_lt_pow_right (by norm_num)
        (hq q (List.mem_cons_self q t))
    · rw [if_neg hc]
      exact ha

theorem checkOut_eq_part {a : ChkAcc} {r : Nat}
    (h : checkOut a = Overlap.part r) :
    a.allOver = false ∧ a.out = r ∧ r ≠ 0 := by
  unfold checkOut at h
  split at h
  · cases h
  · split at h
    · next hout =>
      cases h
      next hall => exact ⟨by simpa using hall, rfl, hout⟩
    · split at h <;> cases h

/-- The core of C5, part one: a `Partial` remainder from `Piece::check` is
nonzero and strictly loses set bits relative to the checked mask. -/
theorem check_part_bits {self : Piece} {m : Nat} {dx dy : Int} {r : Nat}
    (h : Piece.check self (Piece.fromU16 m) dx dy = Overlap.part r) :
    r ≠ 0 ∧ bitCount r < bitCount m := by
  obtain ⟨hall, hout, hne0⟩ := checkOut_eq_part h
  refine ⟨hne0, ?_⟩
  rw [fold_allOver] at hall
  simp only [Bool.true_and] at hall
  obtain ⟨q₀, hq₀mem, hq₀uncov⟩ := List.all_eq_false.mp hall
  obtain ⟨i₀, hi₀16, hi₀bit, rfl⟩ := mem_pts_fromU16.mp hq₀mem
  have hbit : ∀ j, r.testBit j = true →
      j < 16 ∧ m.testBit j = true ∧
        self.at ((cellOf j).1 + dx) ((cellOf j).2 + dy) = true := by
    intro j hj
    rw [← hout, fold_out_testBit] at hj
    have hj' : ((Piece.fromU16 m).pts.any
        (fun q => self.at (q.1 + dx) (q.2 + dy) && (cellIdx q == j))) = true := by
      simpa using hj
    obtain ⟨q, hqmem, hq⟩ := List.any_eq_true.mp hj'
    obtain ⟨hqcov, hqidx⟩ := Bool.and_eq_true_iff.mp hq
    obtain ⟨i, hi16, hibit, rfl⟩ := mem_pts_fromU16.mp hqmem
    rw [cellIdx_cellOf hi16] at hqidx
    have : i = j := by simpa using hqidx
    subst this
    exact ⟨hi16, hibit, hqcov⟩
  apply Finset.card_lt_card
  have hsub : (Finset.range 16).filter (fun i => r.testBit i) ⊆
      (Finset.range 16).filter (fun i => m.testBit i) := by
    intro j hj
    rw [Finset.mem_filter] at hj ⊢
    exact ⟨hj.1, (hbit j hj.2).2.1⟩
  rw [Finset.ssubset_iff_of_subset hsub]
  refine ⟨i₀, Finset.mem_filter.mpr ⟨Finset.mem_range.mpr hi₀16, hi₀bit⟩, ?_⟩
  rw [Finset.mem_filter]
  rintro ⟨-, hr⟩
  exact hq₀uncov (hbit i₀ hr).2.2

theorem check_part_lt {self : Piece} {m : Nat} {dx dy : Int} {r : Nat}
    (h : Piece.check self (Piece.fromU16 m) dx dy = Overlap.part r) :
    r < 2 ^ 16 := by
  obtain ⟨-, hout, -⟩ := checkOut_eq_part h
  rw [← hout]
  exact fold_out_lt self dx dy _ _ (fun q hq => cellIdx_lt_of_mem_pts hq)
    (by norm_num)

theorem remaindersOf_spec {t p : Nat} (h : p ∈ remaindersOf t) :
    ∃ (self : Piece) (dx dy : Int),
      Piece.check self (Piece.fromU16 t) dx dy = Overlap.part p := by
  simp only [remaindersOf, List.mem_flatMap, List.mem_filterMap] at h
  obtain ⟨i, -, r, -, x, -, y, -, hmatch⟩ := h
  refine ⟨(Piece.fromU16 (PIECES.getD i 0)).rotn r, x, y, ?_⟩
  cases hc : Piece.check ((Piece.fromU16 (PIECES.getD i 0)).rotn r)
      (Piece.fromU16 t) x y <;> rw [hc] at hmatch <;> simp at hmatch
  next m => rw [hmatch]

theorem enqueueNew_measure :
    ∀ (ps : List Nat) (q : List Nat) (seen : Finset Nat),
      (∀ p ∈ ps, p < 65536) →
      bfsMeasure (enqueueNew ps (q, seen)) = bfsMeasure (q, seen) := by
  intro ps
  induction ps with
  | nil => intro q seen _; rfl
  | cons p t ih =>
    intro q seen h
    by_cases hp : p ∈ seen
    · simp only [enqueueNew, if_pos hp]
      exact ih q seen (fun x hx => h x (List.mem_cons_of_mem p hx))
    · simp only [enqueueNew, if_neg hp]
      rw [ih _ _ (fun x hx => h x (List.mem_cons_of_mem p hx))]
      show (q ++ [p]).length + ((Finset.range 65536) \ insert p seen).card =
        q.length + ((Finset.range 65536) \ seen).card
      have hmem : p ∈ (Finset.range 65536) \ seen :=
        Finset.mem_sdiff.mpr
          ⟨Finset.mem_range.mpr (h p (List.mem_cons_self p t)), hp⟩
      have hsd : (Finset.range 65536) \ insert p seen =
          ((Finset.range 65536) \ seen).erase p := by
        ext z
        simp only [Finset.mem_sdiff, Finset.mem_erase, Finset.mem_insert]
        constructor
        · rintro ⟨hz, hn⟩
          exact ⟨fun he => hn (Or.inl he), hz, fun hs => hn (Or.inr hs)⟩
        · rintro ⟨hne, hz, hs⟩
          exact ⟨hz, fun hor => hor.elim hne hs⟩
      rw [hsd, Finset.card_erase_of_mem hmem]
      have hpos : 0 < ((Finset.range 65536) \ seen).card :=
        Finset.card_pos.mpr ⟨p, hmem⟩
      rw [List.length_append]
      simp only [List.length_cons, List.length_nil]
      omega

/-- C5: every `Partial` remainder produced by `Piece::check` against a
decoded mask is nonzero and has strictly fewer set bits than that mask;
hence every remainder collected while processing a queue entry of
`build_tables` is strictly smaller than the entry, and each round of the
breadth-first closure strictly decreases the (queue length + unseen
bitmaps) measure — `build_tables` terminates. -/
theorem c5_remainders_strictly_smaller :
    (∀ (self : Piece) (m : Nat) (dx dy : Int) (r : Nat),
      Piece.check self (Piece.fromU16 m) dx dy = Overlap.part r →
      r ≠ 0 ∧ bitCount r < bitCount m) ∧
    (∀ t p : Nat, p ∈ remaindersOf t → p ≠ 0 ∧ bitCount p < bitCount t) ∧
    (∀ (t : Nat) (q : List Nat) (seen : Finset Nat),
      bfsMeasure (bfsRound (t :: q, seen)) < bfsMeasure (t :: q, seen)) := by
  refine ⟨fun self m dx dy r h => check_part_bits h, ?_, ?_⟩
  · intro t p hp
    obtain ⟨self, dx, dy, hc⟩ := remaindersOf_spec hp
    exact check_part_bits hc
  · intro t q seen
    have hb : ∀ p ∈ remaindersOf t, p < 65536 := by
      intro p hp
      obtain ⟨self, dx, dy, hc⟩ := remaindersOf_spec hp
      have := check_part_lt hc
      omega
    show bfsMeasure (enqueueNew (remaindersOf t) (q, seen)) <
      bfsMeasure (t :: q, seen)
    rw [enqueueNew_measure (remaindersOf t) q seen hb]
    show q.length + _ < (t :: q).length + _
    simp only [List.length_cons]
    omega

/-- Witness for C5: processing base piece 0 against itself at offset
(0, -3) yields the remainder `0b1110000000000000`, nonzero and three bits
against ten. -/
theorem c5_remainders_strictly_smaller_witness :
    (57344 : Nat) ≠ 0 ∧ bitCount 57344 < bitCount 0b1110101010101110 :=
  c5_remainders_strictly_smaller.1 (Piece.fromU16 0b1110101010101110)
    0b1110101010101110 0 (-3) 57344 (by decide)

end Nmbr9
